import Mathlib

/-!
Verification of the GalaXC network core (`src/network.py`) against its
natural-language specification.

Modelling conventions (shallow embedding):
* Tensors are matrices `Mat := List (List ℚ)`; row order is batch order.
  The numeric-tensor runtime's floats are modelled by exact rationals.
* `.to(device)` calls move data between devices without changing values,
  so they are identities in this value-level model.
* The softmax inside the classifier chunks applies the real exponential,
  which ℚ cannot represent; every definition that needs it takes an
  abstract function `e : ℚ → ℚ` standing for `exp`.  All statements below
  are proved for every such `e`.
* Fallible tensor operations (fancy indexing / `F.embedding` with an
  out-of-range id, `view` with a non-matching element count, integer
  division by zero) are modelled with `Option`/`Except`: `none`/`.error`
  means the Python code raises.
-/

abbrev Mat := List (List ℚ)

/-- Shape predicate: `M` has `m` rows, every row of length `n`. -/
def wfMat (M : Mat) (m n : ℕ) : Prop :=
  M.length = m ∧ ∀ r ∈ M, r.length = n

instance (M : Mat) (m n : ℕ) : Decidable (wfMat M m n) := by
  unfold wfMat; infer_instance

/-- Dot product of two vectors (truncating at the shorter one, as the
theorems only use it at equal lengths). -/
def dotProd (a b : List ℚ) : ℚ := (List.zipWith (· * ·) a b).sum

/-- `A.mm(B.t())`: row `i`, column `j` is `⟪A i, B j⟫`.  All matrix
products in `network.py` are written as a product with a transpose, so
this is the primitive. -/
def mmT (A B : Mat) : Mat := A.map (fun ar => B.map (fun br => dotProd ar br))

/-- Python slice `l[s:e]` for non-negative bounds: clamps at the list
length and yields `[]` when `e ≤ s`. -/
def pySlice (s e : ℕ) (l : List α) : List α := (l.drop s).take (e - s)

/-- Column-wise concatenation of two matrices (`torch.cat(_, dim=1)`). -/
def hcat2 (A B : Mat) : Mat := List.zipWith (· ++ ·) A B

/-- `torch.cat(xs, dim=1)` for a list of matrices. -/
def hconcat : List Mat → Mat
  | [] => []
  | [M] => M
  | M :: Ms => hcat2 M (hconcat Ms)

/- ### Partition table (`LinearDistributed.__init__`, network.py:366-371) -/

/-- `self.partition_size = math.ceil(output_size / self.num_partitions)`. -/
def partitionSize (output_size num_partitions : ℕ) : ℕ :=
  (output_size + num_partitions - 1) / num_partitions

/-- `self.partition_indices`: for `i < num_partitions` the pair
`(_start, _end) = (i*partition_size, min(_start + partition_size, output_size))`. -/
def partitionIndices (output_size num_partitions : ℕ) : List (ℕ × ℕ) :=
  (List.range num_partitions).map (fun i =>
    (i * partitionSize output_size num_partitions,
     min (i * partitionSize output_size num_partitions
            + partitionSize output_size num_partitions) output_size))

/-- Consecutive ranges touch: `end_i = start_(i+1)`. -/
def rangesContiguous (ps : List (ℕ × ℕ)) : Prop :=
  ∀ i < ps.length, i + 1 < ps.length →
    (ps.getD (i + 1) (0, 0)).1 = (ps.getD i (0, 0)).2

/-- The half-open ranges are pairwise disjoint. -/
def rangesDisjoint (ps : List (ℕ × ℕ)) : Prop :=
  ∀ i < ps.length, ∀ j < ps.length, i ≠ j →
    Finset.Ico (ps.getD i (0, 0)).1 (ps.getD i (0, 0)).2 ∩
      Finset.Ico (ps.getD j (0, 0)).1 (ps.getD j (0, 0)).2 = ∅

/-- The union of the half-open ranges is exactly `[0, L)`. -/
def rangesUnion (ps : List (ℕ × ℕ)) (L : ℕ) : Prop :=
  ps.foldr (fun p acc => Finset.Ico p.1 p.2 ∪ acc) ∅ = Finset.range L

/-- Sum of the shard sizes `end - start`, taken over ℤ because in Python
`end - start` can be negative. -/
def partitionSumSizes (ps : List (ℕ × ℕ)) : ℤ :=
  (ps.map (fun p => (p.2 : ℤ) - (p.1 : ℤ))).sum

/-- The invariant claimed for the partition table: contiguous, disjoint,
union exactly `[0, L)`, sizes summing to `L`. -/
def partitionInvariant (L N : ℕ) : Prop :=
  rangesContiguous (partitionIndices L N) ∧
  rangesDisjoint (partitionIndices L N) ∧
  rangesUnion (partitionIndices L N) L ∧
  partitionSumSizes (partitionIndices L N) = (L : ℤ)

instance (L N : ℕ) : Decidable (partitionInvariant L N) := by
  unfold partitionInvariant rangesContiguous rangesDisjoint rangesUnion
  infer_instance

/- ### Aggregators (`MeanAggregator.forward` / `SumAggregator.forward`,
network.py:22-28 and 38-44) -/

/-- Componentwise sum of a list of `d`-vectors (`tensor.sum(1)` over the
neighbor axis of one node's group). -/
def sumRows (d : ℕ) (rows : Mat) : List ℚ :=
  rows.foldr (fun r acc => List.zipWith (· + ·) r acc) (List.replicate d 0)

/-- The `B` groups of `nb` consecutive rows produced by
`view(node_count, nb_count, d)`. -/
def viewGroups (node_count nb : ℕ) (M : Mat) : List Mat :=
  (List.range node_count).map (fun i => (M.drop (i * nb)).take nb)

/-- Common part of both aggregators:
`nb_count = int(neigh_feats.shape[0] / node_count)` (`none` models the
`ZeroDivisionError` at `node_count = 0`) followed by
`view(node_count, nb_count, d)`, whose element-count check
`node_count*nb_count*d == rows*d` raises (`none`) when it fails. -/
def aggView (node_count : ℕ) (nf : Mat) : Option (List Mat) :=
  if node_count = 0 then none
  else if node_count * (nf.length / node_count) * (nf.head?.getD []).length
      = nf.length * (nf.head?.getD []).length then
    some (viewGroups node_count (nf.length / node_count) nf)
  else none

/-- `MeanAggregator.forward(neighs, node_count, device)`: apply the
injected feature transform, reshape to `(node_count, nb_count, d)` and
take the mean along the neighbor axis. -/
def MeanAggregator.forward (features : α → Mat) (neighs : α)
    (node_count : ℕ) : Option Mat :=
  (aggView node_count (features neighs)).map (fun gs =>
    gs.map (fun g =>
      (sumRows ((features neighs).head?.getD []).length g).map
        (fun x => x / (((features neighs).length / node_count : ℕ) : ℚ))))

/-- `SumAggregator.forward(neighs, node_count, device)`: as the mean
aggregator but summing along the neighbor axis. -/
def SumAggregator.forward (features : α → Mat) (neighs : α)
    (node_count : ℕ) : Option Mat :=
  (aggView node_count (features neighs)).map (fun gs =>
    gs.map (fun g =>
      sumRows ((features neighs).head?.getD []).length g))

/- ### Partitioned classifier (`LinearChunk` / `LinearDistributed`,
network.py:283-429) -/

/-- Row-wise softmax `torch.nn.Softmax(dim=1)`; `e` is the abstract
exponential (see the header: the real `exp` is not representable in ℚ, and
every statement below holds for an arbitrary `e`). -/
def softmaxRow (e : ℚ → ℚ) (v : List ℚ) : List ℚ :=
  v.map (fun x => e x / (v.map e).sum)

/-- The effective per-label weight rows
`w = weight.unsqueeze(1) * act(attention_weights).unsqueeze(2)` followed by
`w.view(-1, input.shape[-1])`.  The reshape is modelled at the shape the
network actually uses, `input.shape[-1] = 3 * input_size` (the classifier
receives the three concatenated hop embeddings): label row `ℓ` with weight
row `w` and attention coefficients `a₀,a₁,a₂` becomes
`a₀·w ++ a₁·w ++ a₂·w`, which is exactly the row-major reshape of the
`(out, 3, input_size)` product tensor into `(out, 3*input_size)`. -/
def effWeight (e : ℚ → ℚ) (weight attention : Mat) : Mat :=
  List.zipWith (fun wr ar =>
    ((softmaxRow e ar).map (fun a => wr.map (fun x => a * x))).flatten)
    weight attention

/-- Parameters of one `LinearChunk` shard: `weight : (output_size, input_size)`,
`bias : (output_size,)`, `attention_weights : (output_size, 3)`.  Sizes are the
list lengths; the random `reset_parameters` initialization is not modelled —
theorems quantify over parameter values. -/
structure LinearChunk where
  weight : Mat
  bias : List ℚ
  attention_weights : Mat

instance : Inhabited LinearChunk := ⟨⟨[], [], []⟩⟩

/-- Error-propagating map: the Python `for`-loop that stops with an
exception as soon as one iteration raises. -/
def optMap (f : α → Option β) : List α → Option (List β)
  | [] => some []
  | a :: as => do
      let b ← f a
      let bs ← optMap f as
      pure (b :: bs)

/-- Integer-tensor fancy indexing `M[ids]` / `F.embedding(ids, M)`:
gathers rows, `none` (Python `IndexError`) on an out-of-range id. -/
def gatherRows (M : Mat) (ids : List ℕ) : Option Mat :=
  optMap (fun i => M[i]?) ids

/-- `v[ids]` for a vector. -/
def gatherVec (v : List ℚ) (ids : List ℕ) : Option (List ℚ) :=
  optMap (fun i => v[i]?) ids

/-- The three shapes of `input[1]` in `forward`: `None`, a 1-D id tensor,
or a 2-D `(batch, K)` id tensor. -/
inductive LabelIds where
  | noIds
  | oneD (ids : List ℕ)
  | twoD (ids : List (List ℕ))

/-- The value computed by the 2-D branch of `LinearChunk.forward` after
the three gathers succeeded: `x[r][j] = ⟪emb[r], effWeight[r*m+j]⟫`
(`x.sum(axis=2)`), plus the gathered bias.  `squeeze()` drops every
singleton axis of the `(b, m, 1)` bias, so for `m = 1` and `b ≥ 2` the
resulting `(b,)` bias broadcasts against the `(b, 1)` sum to a `(b, b)`
matrix — the first branch models that faithfully; otherwise the bias adds
entrywise. -/
def twoDCore (e : ℚ → ℚ) (emb : Mat) (sw sa : Mat) (sb : List ℚ)
    (b m : ℕ) : Mat :=
  if m = 1 ∧ 2 ≤ b then
    (List.range b).map (fun r =>
      (List.range b).map (fun col =>
        ((List.range m).map (fun j =>
          dotProd (emb.getD r []) ((effWeight e sw sa).getD (r * m + j) []))).getD 0 0
          + sb.getD col 0))
  else
    (List.range b).map (fun r =>
      List.zipWith (· + ·)
        ((List.range m).map (fun j =>
          dotProd (emb.getD r []) ((effWeight e sw sa).getD (r * m + j) [])))
        (pySlice (r * m) (r * m + m) sb))

/-- `LinearChunk.forward(input)` (network.py:305-343) for
`input = (emb, label_ids)`.

* `label_ids is None`: dense logits
  `emb.mm(effWeight.t()) + bias` over all of the chunk's rows.
* 1-D: gather the chunk's own weight / attention / bias rows at the given
  ids (raising on out-of-range ids) and compute the same product.
* 2-D `(b, m)`: per example `r` and candidate `j`, the dot product of
  `emb[r]` with the effective weight of id `ids[r][j]`, plus its bias
  (`x.sum(axis=2) + short_bias.squeeze()`).  `squeeze()` drops every
  singleton axis, so for `m = 1` and `b ≥ 2` the `(b,)` bias broadcasts
  against the `(b, 1)` sum to a `(b, b)` matrix — modelled faithfully in
  the first branch. -/
def LinearChunk.forward (e : ℚ → ℚ) (c : LinearChunk) (emb : Mat) :
    LabelIds → Option Mat
  | .noIds =>
      some ((mmT emb (effWeight e c.weight c.attention_weights)).map
        (fun row => List.zipWith (· + ·) row c.bias))
  | .oneD ids => do
      let w ← gatherRows c.weight ids
      let aw ← gatherRows c.attention_weights ids
      let b ← gatherVec c.bias ids
      pure ((mmT emb (effWeight e w aw)).map
        (fun row => List.zipWith (· + ·) row b))
  | .twoD ids => do
      let sw ← gatherRows c.weight ids.flatten
      let sb ← gatherVec c.bias ids.flatten
      let sa ← gatherRows c.attention_weights ids.flatten
      pure (twoDCore e emb sw sa sb ids.length (ids.head?.getD []).length)

/-- `LinearDistributed.forward(input)` (network.py:387-420).
`classifiers` is the shard list built at construction — one `LinearChunk`
per device, so `len(device_embeddings) = classifiers.length` — and the
partition table is recomputed from `output_size` and the shard count
exactly as stored by `__init__`.  Device moves are value identities.

* `None`: every shard sees the same embedding; concatenate shard outputs
  column-wise in partition order.
* 1-D: shard `i` sees `label_ids[start_i:end_i]`.
* 2-D: `partition_length = K // num_partitions`; shard `i` sees columns
  `[i*partition_length, (i+1)*partition_length)` of `label_ids`. -/
def LinearDistributed.forward (e : ℚ → ℚ) (output_size : ℕ)
    (classifiers : List LinearChunk) (emb : Mat) : LabelIds → Option Mat
  | .noIds => do
      let xs ← optMap (fun c => LinearChunk.forward e c emb .noIds) classifiers
      pure (hconcat xs)
  | .oneD ids => do
      let xs ← optMap (fun ic =>
          LinearChunk.forward e ic.2 emb (.oneD (pySlice
            ((partitionIndices output_size classifiers.length).getD ic.1 (0, 0)).1
            ((partitionIndices output_size classifiers.length).getD ic.1 (0, 0)).2
            ids)))
        classifiers.enum
      pure (hconcat xs)
  | .twoD ids => do
      let pl := (ids.head?.getD []).length / classifiers.length
      let xs ← optMap (fun ic =>
          LinearChunk.forward e ic.2 emb
            (.twoD (ids.map (fun row => pySlice (ic.1 * pl) ((ic.1 + 1) * pl) row))))
        classifiers.enum
      pure (hconcat xs)

/- ### Dense-mode shard output and shape lemmas -/

/-- The dense (`label_ids is None`) output of one shard:
`emb.mm(effWeight.t()) + bias` (network.py:305-311). -/
def denseShardOut (e : ℚ → ℚ) (c : LinearChunk) (emb : Mat) : Mat :=
  (mmT emb (effWeight e c.weight c.attention_weights)).map
    (fun row => List.zipWith (· + ·) row c.bias)

/- ### Encoders (`SaintEncoder` / `SageEncoder` / `GINEncoder`,
network.py:47-280) -/

/-- One level of the nested query context
`{node_feats, neighbor_feats, node_count}` built by `query`.  `α` is the
type of the recursively nested feature payload (a raw feature matrix at
hop 1, a sub-context at deeper hops); the encoder consumes it only
through its injected feature/aggregator callables. -/
structure EncoderContext (α : Type) where
  node_feats : α
  neighbor_feats : α
  node_count : ℕ

/-- `tensor.t()`: row `j` of the result is column `j` of the input (the
column count is read off the first row, as for a well-formed tensor). -/
def transposeMat (M : Mat) : Mat :=
  match M with
  | [] => []
  | r :: _ =>
    (List.range r.length).map (fun j => M.map (fun row => row.getD j 0))

/-- Elementwise application (activations such as `F.relu`). -/
def mapMat (f : ℚ → ℚ) (M : Mat) : Mat := M.map (fun r => r.map f)

/-- `torch.add` of same-shape matrices. -/
def matAdd (A B : Mat) : Mat := List.zipWith (List.zipWith (· + ·)) A B

/-- Scalar multiple of a matrix (`(1 + eps) * self_feats`). -/
def smulMat (c : ℚ) (M : Mat) : Mat := M.map (fun r => r.map (fun x => c * x))

/-- `GINEncoder.forward(context)` (network.py:271-280): aggregate the
neighbor features, add `(1 + eps) * self_feats`, and return the
transpose `combined.t()`. -/
def GINEncoder.forward (aggregator : α → ℕ → Option Mat)
    (features : α → Mat) (eps : ℚ) (ctx : EncoderContext α) :
    Option Mat := do
  let neigh_feats ← aggregator ctx.neighbor_feats ctx.node_count
  let self_feats := features ctx.node_feats
  pure (transposeMat (matAdd neigh_feats (smulMat (1 + eps) self_feats)))

/-- `SageEncoder.forward(context)` (network.py:197-206):
`combined = cat([self_feats, neigh_feats], dim=1)` then
`activation_fn(weight.mm(combined.t()))`; `A.mm(Bᵗ)` is `mmT A B`. -/
def SageEncoder.forward (aggregator : α → ℕ → Option Mat)
    (features : α → Mat) (weight : Mat) (activation_fn : ℚ → ℚ)
    (ctx : EncoderContext α) : Option Mat := do
  let neigh_feats ← aggregator ctx.neighbor_feats ctx.node_count
  let self_feats := features ctx.node_feats
  pure (mapMat activation_fn (mmT weight (hcat2 self_feats neigh_feats)))

/-- `SaintEncoder.forward(context)` (network.py:115-127):
`combined = cat([weight_1.mm(self_featsᵗ), weight_2.mm(neigh_featsᵗ)],
dim=0)` then the activation. -/
def SaintEncoder.forward (aggregator : α → ℕ → Option Mat)
    (features : α → Mat) (weight_1 weight_2 : Mat)
    (activation_fn : ℚ → ℚ) (ctx : EncoderContext α) : Option Mat := do
  let neigh_feats ← aggregator ctx.neighbor_feats ctx.node_count
  let self_feats := features ctx.node_feats
  pure (mapMat activation_fn
    (mmT weight_1 self_feats ++ mmT weight_2 neigh_feats))

/- ### Model orchestrator (`GalaXCBase`, network.py:466-605) -/

/-- Stored state of one `GINEncoder` as built by `_construct_embeddings`;
the `features`/`query_func` closures and the randomly initialized `eps`
carry no construction-time data beyond what is recorded here. -/
structure GINEncoderState where
  device_name : String
  feature_dim : ℕ
  intermediate_dim : ℕ
  embed_dim : ℕ
  num_sample : ℕ
deriving DecidableEq

/-- Stored state of one `Residual` transform (`_construct_transform`). -/
structure ResidualState where
  input_size : ℕ
  output_size : ℕ
  dropout : ℚ
  padding_size : ℤ
deriving DecidableEq

def Residual.init (input_size output_size : ℕ) (dropout : ℚ) :
    ResidualState :=
  { input_size := input_size, output_size := output_size,
    dropout := dropout,
    padding_size := (output_size : ℤ) - (input_size : ℤ) }

/-- Stored state of `LinearDistributed.__init__` (network.py:356-385).
The shard parameter tensors are randomly initialized, so only their row
counts (`end - start`, over ℤ because Python can compute a negative size,
on which `LinearChunk` construction would raise) are recorded; the value
behaviour of the shards is covered by `LinearChunk.forward` /
`LinearDistributed.forward` above. -/
structure LinearDistributedState where
  num_partitions : ℕ
  device_embeddings : List String
  input_size : ℕ
  output_size : ℕ
  partition_size : ℕ
  partition_indices : List (ℕ × ℕ)
  chunk_sizes : List ℤ
deriving DecidableEq

def LinearDistributed.init (input_size output_size : ℕ)
    (device_embeddings : List String) : LinearDistributedState :=
  { num_partitions := device_embeddings.length
    device_embeddings := device_embeddings
    input_size := input_size
    output_size := output_size
    partition_size := partitionSize output_size device_embeddings.length
    partition_indices := partitionIndices output_size device_embeddings.length
    chunk_sizes := (partitionIndices output_size device_embeddings.length).map
      (fun p => (p.2 : ℤ) - (p.1 : ℤ)) }

/-- Stored state of `GalaXCBase.__init__` (network.py:469-498); `α` is
the opaque graph collaborator's type. -/
structure GalaXCState (α : Type) where
  graph : α
  fanouts : List ℕ
  num_labels : ℕ
  feature_dim : ℕ
  hidden_dims : ℕ
  embed_dim : ℕ
  device_names : List String
  device_name : String
  dropout : ℚ
  padding_idx : ℕ
  num_clf_partitions : ℕ
  first_layer_enc : GINEncoderState
  second_layer_enc : GINEncoderState
  third_layer_enc : GINEncoderState
  transform1 : ResidualState
  transform2 : ResidualState
  transform3 : ResidualState
  classifier : LinearDistributedState

/-- `GalaXCBase.__init__` (network.py:469-498).  `.error` models the
exceptions raised during construction: the
`assert len(fanouts) in [1, 2, 3]` (network.py:478), the
`device_names[0]` access (network.py:487), and — decisive for C6 —
`_construct_embeddings` (network.py:514-557), which unconditionally
builds THREE `GINEncoder`s with `num_sample = fanouts[0]`, `fanouts[1]`,
`fanouts[2]`, so a fan-out list of length 1 or 2 raises `IndexError`
even though the assert admits it. -/
def GalaXCBase.init {α : Type} (num_labels : ℕ) (hidden_dims : ℕ)
    (device_names : List String) (feature_dim : ℕ) (fanouts : List ℕ)
    (graph : α) (embed_dim : ℕ) (dropout : ℚ) (num_clf_partitions : ℕ)
    (padding_idx : ℕ) : Except String (GalaXCState α) :=
  if fanouts.length = 1 ∨ fanouts.length = 2 ∨ fanouts.length = 3 then
    match device_names with
    | [] => .error "IndexError: device_names"
    | d0 :: _ =>
      match fanouts[0]?, fanouts[1]?, fanouts[2]? with
      | some f0, some f1, some f2 =>
        .ok (GalaXCState.mk graph fanouts num_labels feature_dim
          hidden_dims embed_dim device_names d0 dropout padding_idx
          num_clf_partitions
          (GINEncoderState.mk d0 feature_dim feature_dim embed_dim f0)
          (GINEncoderState.mk d0 feature_dim embed_dim embed_dim f1)
          (GINEncoderState.mk d0 feature_dim embed_dim embed_dim f2)
          (Residual.init embed_dim hidden_dims dropout)
          (Residual.init embed_dim hidden_dims dropout)
          (Residual.init embed_dim hidden_dims dropout)
          (LinearDistributed.init hidden_dims num_labels device_names))
      | _, _, _ => .error "IndexError: fanouts"
  else .error "AssertionError: fanouts length"

/-- The attribute names bound on a constructed `GalaXCBase` object: the
instance attributes assigned in `__init__`/`_construct_embeddings` plus
the class's methods and properties.  Python attribute lookup on the
object succeeds exactly for these names (`nn.Module.__getattr__` also
searches registered parameters/buffers/submodules, all of which appear
here).  `embeddings` is not among them: no statement of `__init__` ever
assigns `self.embeddings`. -/
def GalaXCBase.attributeNames : List String :=
  ["graph", "fanouts", "num_labels", "feature_dim", "hidden_dims",
   "embed_dim", "device_names", "device_name", "device_embeddings",
   "dropout", "padding_idx", "num_clf_partitions",
   "first_layer_enc", "second_layer_enc", "third_layer_enc",
   "transform1", "transform2", "transform3", "classifier",
   "query", "_construct_transform", "_construct_classifier",
   "_construct_embeddings", "encode", "encode_graph_embedding",
   "forward", "initialize_embeddings", "initialize_classifier",
   "get_clf_weights", "move_to_devices", "num_trainable_params",
   "model_size"]

/-- The attribute names on a `LinearDistributed` object (assigned in
`__init__`, network.py:359-385, plus its methods).  It registers no
parameter called `weight` or `bias` — those live inside the
`LinearChunk`s of `self.classifiers`. -/
def LinearDistributed.attributeNames : List String :=
  ["num_partitions", "device_embeddings", "input_size", "output_size",
   "partition_size", "partition_indices", "classifiers",
   "forward", "move_to_devices", "reset_parameters"]

/-- `GalaXCBase.initialize_embeddings(word_embeddings)`
(network.py:581-582): its first step reads `self.embeddings`, modelled
as the Python attribute lookup on the names the object actually binds. -/
def GalaXCBase.initialize_embeddings : Except String Unit :=
  if "embeddings" ∈ GalaXCBase.attributeNames then .ok ()
  else .error "AttributeError: embeddings"

/-- `GalaXCBase.initialize_classifier(clf_weights)` (network.py:584-587):
its first step reads `self.classifier.weight`, modelled as the attribute
lookup on the `LinearDistributed` object. -/
def GalaXCBase.initialize_classifier : Except String Unit :=
  if "weight" ∈ LinearDistributed.attributeNames then .ok ()
  else .error "AttributeError: weight"

/- ### Basic lemmas about the partition table -/

theorem getD_range_map (f : ℕ → α) (n i : ℕ) (d : α) (h : i < n) :
    ((List.range n).map f).getD i d = f i := by
  rw [List.getD_eq_getElem _ d (by simpa using h)]
  simp

theorem partitionIndices_length (L N : ℕ) :
    (partitionIndices L N).length = N := by
  simp [partitionIndices]

theorem partitionIndices_getD (L N i : ℕ) (h : i < N) :
    (partitionIndices L N).getD i (0, 0) =
      (i * partitionSize L N,
       min (i * partitionSize L N + partitionSize L N) L) := by
  unfold partitionIndices
  rw [getD_range_map _ _ _ _ h]

theorem le_mul_partitionSize (L N : ℕ) (hN : 1 ≤ N) :
    L ≤ N * partitionSize L N := by
  unfold partitionSize
  have h1 := Nat.div_add_mod (L + N - 1) N
  have h2 : (L + N - 1) % N < N := Nat.mod_lt _ (by omega)
  generalize N * ((L + N - 1) / N) = t at h1 ⊢
  generalize (L + N - 1) % N = r at h1 h2
  omega

theorem one_le_partitionSize (L N : ℕ) (hL : 1 ≤ L) (hN : 1 ≤ N) :
    1 ≤ partitionSize L N := by
  unfold partitionSize
  rw [Nat.le_div_iff_mul_le (by omega)]
  omega

theorem mem_foldr_union (ps : List (ℕ × ℕ)) (x : ℕ) :
    x ∈ ps.foldr (fun p acc => Finset.Ico p.1 p.2 ∪ acc) ∅ ↔
      ∃ p ∈ ps, x ∈ Finset.Ico p.1 p.2 := by
  induction ps with
  | nil => simp
  | cons p ps ih => simp [ih]

theorem list_sum_range_map (f : ℕ → ℤ) (n : ℕ) :
    ((List.range n).map f).sum = ∑ i in Finset.range n, f i := by
  induction n with
  | zero => simp
  | succ n ih =>
    rw [List.range_succ, List.map_append, List.sum_append,
      Finset.sum_range_succ, ih]
    simp

/-- C1: the claimed partition-table invariant fails as stated: with
`num_labels = 5` and `4` partitions, `partition_size = 2` and the table is
`[(0,2),(2,4),(4,5),(6,5)]` — the last range starts past `num_labels`, so
contiguity breaks (`6 ≠ 5`) and the signed shard sizes sum to `4 ≠ 5`. -/
theorem C1_partition_table_counterexample : ¬ partitionInvariant 5 4 := by
  decide

/-- C1 (amended): the partition table built at classifier construction is
contiguous, non-overlapping, covers exactly `[0, num_labels)` and its shard
sizes sum to `num_labels`, PROVIDED every computed start offset
`i * ceil(num_labels/N)` is at most `num_labels` (which also is exactly the
condition for the construction of the shards to succeed). -/
theorem C1_partition_table_amended (L N : ℕ) (hL : 1 ≤ L) (hN : 1 ≤ N)
    (hgood : ∀ i < N, i * partitionSize L N ≤ L) :
    partitionInvariant L N := by
  have hps1 : 1 ≤ partitionSize L N := one_le_partitionSize L N hL hN
  have hNps : L ≤ N * partitionSize L N := le_mul_partitionSize L N hN
  set s := partitionSize L N with hs
  refine ⟨?_, ?_, ?_, ?_⟩
  · -- contiguity
    intro i hi hi1
    rw [partitionIndices_length] at hi hi1
    rw [partitionIndices_getD L N _ hi1, partitionIndices_getD L N _ hi]
    have h2 : (i + 1) * s ≤ L := hgood (i + 1) hi1
    rw [Nat.succ_mul] at h2
    simp only [min_eq_left h2]
    rw [Nat.succ_mul]
  · -- disjointness
    intro i hi j hj hne
    rw [partitionIndices_length] at hi hj
    rw [partitionIndices_getD L N _ hi, partitionIndices_getD L N _ hj]
    simp only [← hs]
    rcases Nat.lt_or_ge i j with hij | hij
    · have h1 : i * s + s ≤ j * s := by
        have h2 := Nat.mul_le_mul_right s (show i + 1 ≤ j by omega)
        rwa [Nat.succ_mul] at h2
      rw [Finset.Ico_inter_Ico]
      apply Finset.Ico_eq_empty
      omega
    · have hji : j < i := by omega
      have h1 : j * s + s ≤ i * s := by
        have h2 := Nat.mul_le_mul_right s (show j + 1 ≤ i by omega)
        rwa [Nat.succ_mul] at h2
      rw [Finset.Ico_inter_Ico]
      apply Finset.Ico_eq_empty
      omega
  · -- union
    unfold rangesUnion
    apply Finset.ext
    intro x
    rw [mem_foldr_union, Finset.mem_range]
    constructor
    · rintro ⟨p, hp, hx⟩
      unfold partitionIndices at hp
      rw [List.mem_map] at hp
      obtain ⟨i, hi, rfl⟩ := hp
      rw [Finset.mem_Ico] at hx
      omega
    · intro hx
      refine ⟨(x / s * s, min (x / s * s + s) L), ?_, ?_⟩
      · unfold partitionIndices
        rw [List.mem_map]
        refine ⟨x / s, List.mem_range.mpr ?_, rfl⟩
        rw [Nat.div_lt_iff_lt_mul (by omega)]
        have : N * s = s * N := Nat.mul_comm _ _
        omega
      · rw [Finset.mem_Ico]
        have h1 := Nat.div_add_mod x s
        have h2 : x % s < s := Nat.mod_lt _ (by omega)
        rw [Nat.mul_comm s (x / s)] at h1
        generalize x / s * s = q at h1 ⊢
        generalize x % s = r at h1 h2
        omega
  · -- sum of sizes
    unfold partitionSumSizes partitionIndices
    rw [List.map_map]
    have hrw : ((fun p => ((p.2 : ℕ) : ℤ) - ((p.1 : ℕ) : ℤ)) ∘
        (fun i => (i * s, min (i * s + s) L))) =
        fun i => (((min ((i : ℕ) * s + s) L : ℕ) : ℤ) - ((i * s : ℕ) : ℤ)) := by
      funext i
      simp
    rw [hrw, list_sum_range_map]
    have hcong : ∀ i ∈ Finset.range N,
        (((min (i * s + s) L : ℕ) : ℤ) - ((i * s : ℕ) : ℤ)) =
          ((fun i => ((min (i * s) L : ℕ) : ℤ)) (i + 1) -
            (fun i => ((min (i * s) L : ℕ) : ℤ)) i) := by
      intro i hi
      rw [Finset.mem_range] at hi
      have hstart : min (i * s) L = i * s := min_eq_left (hgood i hi)
      have hsucc : (i + 1) * s = i * s + s := Nat.succ_mul i s
      simp only [hsucc, hstart]
    rw [Finset.sum_congr rfl hcong, Finset.sum_range_sub
      (fun i => ((min (i * s) L : ℕ) : ℤ)) N]
    have hN' : min (N * s) L = L := min_eq_right hNps
    simp [hN']

theorem C1_partition_table_witness : partitionInvariant 10 4 :=
  C1_partition_table_amended 10 4 (by decide) (by decide) (by decide)

theorem sumRows_length (d : ℕ) (rows : Mat) (h : ∀ r ∈ rows, r.length = d) :
    (sumRows d rows).length = d := by
  induction rows with
  | nil => simp [sumRows]
  | cons r rs ih =>
    have hr : r.length = d := h r (by simp)
    have hrs := ih (fun r hm => h r (by simp [hm]))
    simp only [sumRows, List.foldr_cons] at hrs ⊢
    rw [List.length_zipWith, hr, hrs, min_self]

theorem map_id_of_eq (f : α → α) (h : ∀ x, f x = x) (l : List α) :
    l.map f = l := by
  induction l with
  | nil => rfl
  | cons x xs ih => simp [h, ih]

/-- C7: both aggregators accept a `(B*k, d)` neighbor-feature matrix and
return a `(B, d)` matrix, and the sum-aggregate equals `k` times the
mean-aggregate entrywise. -/
theorem C7_aggregator_shapes_and_scaling (M : Mat) (B k d : ℕ)
    (hB : 1 ≤ B) (hk : 1 ≤ k) (hM : M.length = B * k)
    (hwf : ∀ r ∈ M, r.length = d) :
    ∃ Mmean Msum,
      MeanAggregator.forward id M B = some Mmean ∧
      SumAggregator.forward id M B = some Msum ∧
      wfMat Mmean B d ∧ wfMat Msum B d ∧
      Msum = Mmean.map (fun row => row.map (fun x => (k : ℚ) * x)) := by
  have hB0 : B ≠ 0 := by omega
  have hnb : M.length / B = k := by rw [hM, Nat.mul_div_cancel_left _ (by omega)]
  have hd0 : (M.head?.getD []).length = d := by
    rcases M with _ | ⟨r, rest⟩
    · simp at hM; omega
    · simpa using hwf r (by simp)
  have hview : aggView B M = some (viewGroups B k M) := by
    unfold aggView
    rw [if_neg hB0, hnb, if_pos (by rw [hM])]
  have hglen : ∀ g ∈ viewGroups B k M, ∀ r ∈ g, r.length = d := by
    intro g hg r hr
    unfold viewGroups at hg
    rw [List.mem_map] at hg
    obtain ⟨i, _, rfl⟩ := hg
    exact hwf r (List.mem_of_mem_drop (List.mem_of_mem_take hr))
  have hk0 : (k : ℚ) ≠ 0 := by
    simp only [ne_eq, Nat.cast_eq_zero]; omega
  refine ⟨(viewGroups B k M).map (fun g =>
      (sumRows ((M.head?.getD []).length) g).map
        (fun x => x / ((M.length / B : ℕ) : ℚ))),
    (viewGroups B k M).map (fun g => sumRows ((M.head?.getD []).length) g),
    ?_, ?_, ?_, ?_, ?_⟩
  · simp only [MeanAggregator.forward, id_eq]
    rw [hview]
    rfl
  · simp only [SumAggregator.forward, id_eq]
    rw [hview]
    rfl
  · -- mean shape
    constructor
    · simp [viewGroups]
    · intro r hr
      rw [List.mem_map] at hr
      obtain ⟨g, hg, rfl⟩ := hr
      rw [List.length_map, hd0, sumRows_length d g (hglen g hg)]
  · -- sum shape
    constructor
    · simp [viewGroups]
    · intro r hr
      rw [List.mem_map] at hr
      obtain ⟨g, hg, rfl⟩ := hr
      rw [hd0, sumRows_length d g (hglen g hg)]
  · -- sum = k * mean
    rw [List.map_map]
    apply List.map_congr_left
    intro g hg
    simp only [Function.comp, hnb, List.map_map]
    symm
    apply map_id_of_eq
    intro x
    field_simp

theorem C7_aggregator_witness :
    ∃ Mmean Msum,
      MeanAggregator.forward id [[1], [2], [3], [4]] 2 = some Mmean ∧
      SumAggregator.forward id [[1], [2], [3], [4]] 2 = some Msum ∧
      wfMat Mmean 2 1 ∧ wfMat Msum 2 1 ∧
      Msum = Mmean.map (fun row => row.map (fun x => ((2 : ℕ) : ℚ) * x)) :=
  C7_aggregator_shapes_and_scaling [[1], [2], [3], [4]] 2 2 1
    (by decide) (by decide) (by decide) (by decide)

/-- C8: with `node_count ≥ 1` and an `(R, d)` neighbor-feature matrix with
`d ≥ 1`, both aggregators raise a shape error (modelled `none`) iff
`R % node_count ≠ 0`; when it divides, aggregation completes. -/
theorem C8_aggregator_divisibility (M : Mat) (R node_count d : ℕ)
    (hnc : 1 ≤ node_count) (hR : M.length = R) (hd : 1 ≤ d)
    (hwf : ∀ r ∈ M, r.length = d) :
    ((MeanAggregator.forward id M node_count = none) ↔ ¬ R % node_count = 0) ∧
    ((SumAggregator.forward id M node_count = none) ↔ ¬ R % node_count = 0) := by
  have hnc0 : node_count ≠ 0 := by omega
  have key : (aggView node_count M = none) ↔ ¬ R % node_count = 0 := by
    rcases M with _ | ⟨r, rest⟩
    · simp only [List.length_nil] at hR
      unfold aggView
      rw [if_neg hnc0]
      simp [← hR]
    · have hd0 : (((r :: rest).head?).getD []).length = d := by
        simpa using hwf r (by simp)
      unfold aggView
      rw [if_neg hnc0, hd0, hR]
      by_cases hdvd : R % node_count = 0
      · have hc : node_count * (R / node_count) = R :=
          Nat.mul_div_cancel' (Nat.dvd_of_mod_eq_zero hdvd)
        rw [hc, if_pos rfl]
        simp [hdvd]
      · have hne : ¬ node_count * (R / node_count) * d = R * d := by
          intro heq
          have h2 : node_count * (R / node_count) = R :=
            Nat.eq_of_mul_eq_mul_right (by omega) heq
          exact hdvd (Nat.mod_eq_zero_of_dvd ⟨R / node_count, h2.symm⟩)
        rw [if_neg hne]
        simp [hdvd]
  have hmean : (MeanAggregator.forward id M node_count = none) ↔
      (aggView node_count M = none) := by
    simp only [MeanAggregator.forward, id_eq, Option.map_eq_none']
  have hsum : (SumAggregator.forward id M node_count = none) ↔
      (aggView node_count M = none) := by
    simp only [SumAggregator.forward, id_eq, Option.map_eq_none']
  exact ⟨hmean.trans key, hsum.trans key⟩

theorem C8_aggregator_witness :
    ((MeanAggregator.forward id [[1], [2], [3]] 2 = none) ↔ ¬ 3 % 2 = 0) ∧
    ((SumAggregator.forward id [[1], [2], [3]] 2 = none) ↔ ¬ 3 % 2 = 0) :=
  C8_aggregator_divisibility [[1], [2], [3]] 3 2 1
    (by decide) (by decide) (by decide) (by decide)

/- ### List and concatenation support lemmas -/

theorem getD_map_lt (f : α → β) (l : List α) (i : ℕ) (hi : i < l.length)
    (da : α) (db : β) : (l.map f).getD i db = f (l.getD i da) := by
  rw [List.getD_eq_getElem _ db (by simpa using hi),
    List.getD_eq_getElem _ da hi, List.getElem_map]

theorem optMap_cons (f : α → Option β) (a : α) (as : List α) :
    optMap f (a :: as) =
      (f a).bind (fun b => (optMap f as).bind (fun bs => some (b :: bs))) := rfl

theorem optMap_length (f : α → Option β) (l : List α) (bs : List β)
    (h : optMap f l = some bs) : bs.length = l.length := by
  induction l generalizing bs with
  | nil =>
    simp only [optMap, Option.some.injEq] at h
    rw [← h]
    rfl
  | cons a as ih =>
    rw [optMap_cons] at h
    cases hfa : f a with
    | none => rw [hfa] at h; exact Option.noConfusion h
    | some b =>
      rw [hfa] at h
      cases hrest : optMap f as with
      | none => rw [hrest] at h; exact Option.noConfusion h
      | some bs2 =>
        rw [hrest] at h
        have h3 : b :: bs2 = bs := Option.some.inj h
        rw [← h3]
        simp [ih bs2 hrest]

theorem optMap_getD (f : α → Option β) (l : List α) (bs : List β)
    (h : optMap f l = some bs) (i : ℕ) (hi : i < l.length)
    (da : α) (db : β) : f (l.getD i da) = some (bs.getD i db) := by
  induction l generalizing bs i with
  | nil => simp at hi
  | cons a as ih =>
    rw [optMap_cons] at h
    cases hfa : f a with
    | none => rw [hfa] at h; exact Option.noConfusion h
    | some b =>
      rw [hfa] at h
      cases hrest : optMap f as with
      | none => rw [hrest] at h; exact Option.noConfusion h
      | some bs2 =>
        rw [hrest] at h
        have h3 : b :: bs2 = bs := Option.some.inj h
        rw [← h3]
        cases i with
        | zero => simpa using hfa
        | succ i2 =>
          simp only [List.getD_cons_succ]
          exact ih bs2 hrest i2 (by simpa using hi)

theorem optMap_isSome (f : α → Option β) (l : List α)
    (h : ∀ a ∈ l, ∃ b, f a = some b) : ∃ bs, optMap f l = some bs := by
  induction l with
  | nil => exact ⟨[], rfl⟩
  | cons a as ih =>
    obtain ⟨b, hb⟩ := h a (by simp)
    obtain ⟨bs, hbs⟩ := ih (fun x hx => h x (by simp [hx]))
    exact ⟨b :: bs, by rw [optMap_cons, hb, hbs]; rfl⟩

theorem optMap_of_some (g : α → β) (l : List α) :
    optMap (fun a => some (g a)) l = some (l.map g) := by
  induction l with
  | nil => rfl
  | cons a as ih => rw [optMap_cons, ih]; rfl

theorem wfMat_getD_length {M : Mat} {m n : ℕ} (h : wfMat M m n) (i : ℕ)
    (hi : i < m) : (M.getD i []).length = n := by
  apply h.2
  rw [List.getD_eq_getElem _ _ (by rw [h.1]; exact hi)]
  exact List.getElem_mem _

theorem wfMat_of_getD (M : Mat) (m n : ℕ) (hlen : M.length = m)
    (h : ∀ i < m, (M.getD i []).length = n) : wfMat M m n := by
  refine ⟨hlen, ?_⟩
  intro r hr
  rw [List.mem_iff_getElem] at hr
  obtain ⟨i, hi, rfl⟩ := hr
  rw [← List.getD_eq_getElem M [] hi]
  exact h i (by omega)

theorem hcat2_getD (A B : Mat) (j : ℕ) (hA : j < A.length)
    (hB : j < B.length) :
    (hcat2 A B).getD j [] = A.getD j [] ++ B.getD j [] := by
  unfold hcat2
  rw [List.getD_eq_getElem _ _ (by rw [List.length_zipWith]; omega),
    List.getElem_zipWith, List.getD_eq_getElem _ _ hA,
    List.getD_eq_getElem _ _ hB]

theorem hcat2_wf (A B : Mat) (b wa wb : ℕ) (hA : wfMat A b wa)
    (hB : wfMat B b wb) : wfMat (hcat2 A B) b (wa + wb) := by
  apply wfMat_of_getD
  · unfold hcat2
    rw [List.length_zipWith, hA.1, hB.1, min_self]
  · intro i hi
    rw [hcat2_getD A B i (by rw [hA.1]; exact hi) (by rw [hB.1]; exact hi),
      List.length_append, wfMat_getD_length hA i hi,
      wfMat_getD_length hB i hi]

theorem hconcat_cons2 (M M2 : Mat) (rest : List Mat) :
    hconcat (M :: M2 :: rest) = hcat2 M (hconcat (M2 :: rest)) := rfl

theorem hconcat_length (Ms : List Mat) (b : ℕ) (hne : Ms ≠ [])
    (hb : ∀ M ∈ Ms, M.length = b) : (hconcat Ms).length = b := by
  induction Ms with
  | nil => exact absurd rfl hne
  | cons M rest ih =>
    rcases rest with _ | ⟨M2, rest2⟩
    · simpa [hconcat] using hb M (by simp)
    · rw [hconcat_cons2]
      unfold hcat2
      rw [List.length_zipWith, hb M (by simp),
        ih (by simp) (fun X hX => hb X (by simp [hX])), min_self]

theorem hconcat_wf (Ms : List Mat) (ws : List ℕ) (b : ℕ)
    (hlen : Ms.length = ws.length) (hne : Ms ≠ [])
    (hwf : ∀ i < Ms.length, wfMat (Ms.getD i []) b (ws.getD i 0)) :
    wfMat (hconcat Ms) b ws.sum := by
  induction Ms generalizing ws with
  | nil => exact absurd rfl hne
  | cons M rest ih =>
    rcases ws with _ | ⟨w, ws2⟩
    · simp at hlen
    have h1 : wfMat M b w := by simpa using hwf 0 (by simp)
    rcases rest with _ | ⟨M2, rest2⟩
    · rcases ws2 with _ | _
      · simpa [hconcat] using h1
      · simp at hlen
    · have h2 : wfMat (hconcat (M2 :: rest2)) b ws2.sum := by
        apply ih ws2 (by simpa using hlen) (by simp)
        intro i hi
        simpa using hwf (i + 1) (by simpa using hi)
      rw [hconcat_cons2, List.sum_cons]
      exact hcat2_wf _ _ _ _ _ h1 h2

theorem hconcat_getD_row (Ms : List Mat) (b : ℕ) (hne : Ms ≠ [])
    (hb : ∀ M ∈ Ms, M.length = b) (j : ℕ) (hj : j < b) :
    (hconcat Ms).getD j [] = (Ms.map (fun M => M.getD j [])).flatten := by
  induction Ms with
  | nil => exact absurd rfl hne
  | cons M rest ih =>
    rcases rest with _ | ⟨M2, rest2⟩
    · simp [hconcat]
    · rw [hconcat_cons2,
        hcat2_getD M _ j (by rw [hb M (by simp)]; exact hj)
          (by rw [hconcat_length _ b (by simp)
                (fun X hX => hb X (by simp [hX]))]; exact hj),
        ih (by simp) (fun X hX => hb X (by simp [hX]))]
      simp

theorem pySlice_append_left (p F : List α) (o n : ℕ) :
    pySlice (p.length + o) (p.length + o + n) (p ++ F) = pySlice o (o + n) F := by
  unfold pySlice
  rw [List.drop_append]
  congr 1
  omega

theorem flatten_pySlice (parts : List (List ℚ)) (ws : List ℕ)
    (hlen : parts.length = ws.length)
    (hws : ∀ i < parts.length, (parts.getD i []).length = ws.getD i 0) :
    ∀ i < parts.length,
      pySlice ((ws.take i).sum) ((ws.take i).sum + ws.getD i 0)
        parts.flatten = parts.getD i [] := by
  induction parts generalizing ws with
  | nil => intro i hi; simp at hi
  | cons p ps ih =>
    rcases ws with _ | ⟨w, ws2⟩
    · simp at hlen
    intro i hi
    have hp : p.length = w := by simpa using hws 0 (by simp)
    cases i with
    | zero =>
      simp only [List.take_zero, List.sum_nil, List.getD_cons_zero,
        List.flatten_cons]
      unfold pySlice
      simp only [List.drop_zero, Nat.zero_add, Nat.sub_zero]
      rw [List.take_append_of_le_length (by omega), ← hp,
        List.take_length]
    | succ i2 =>
      have hsum : ((w :: ws2).take (i2 + 1)).sum = w + (ws2.take i2).sum := by
        rw [List.take_succ_cons, List.sum_cons]
      rw [List.flatten_cons, List.getD_cons_succ, List.getD_cons_succ, hsum,
        ← hp, pySlice_append_left]
      apply ih ws2 (by simpa using hlen) ?_ i2 (by simpa using hi)
      intro j hj
      simpa using hws (j + 1) (by simpa using hj)

theorem hconcat_slice (Ms : List Mat) (ws : List ℕ) (b : ℕ)
    (hlen : Ms.length = ws.length) (hne : Ms ≠ [])
    (hwf : ∀ i < Ms.length, wfMat (Ms.getD i []) b (ws.getD i 0)) :
    ∀ i < Ms.length,
      (hconcat Ms).map
        (pySlice ((ws.take i).sum) ((ws.take i).sum + ws.getD i 0)) =
        Ms.getD i [] := by
  intro i hi
  have hb : ∀ M ∈ Ms, M.length = b := by
    intro M hM
    rw [List.mem_iff_getElem] at hM
    obtain ⟨j, hj, rfl⟩ := hM
    rw [← List.getD_eq_getElem Ms [] hj]
    exact (hwf j (by omega)).1
  have hclen : (hconcat Ms).length = b := hconcat_length Ms b hne hb
  apply List.ext_getElem
  · rw [List.length_map, hclen, (hwf i hi).1]
  · intro j hj1 hj2
    rw [List.getElem_map]
    have hjb : j < b := by rw [List.length_map, hclen] at hj1; exact hj1
    rw [← List.getD_eq_getElem (hconcat Ms) [] (by rw [hclen]; exact hjb),
      hconcat_getD_row Ms b hne hb j hjb,
      ← List.getD_eq_getElem (Ms.getD i []) []
        (by rw [(hwf i hi).1]; exact hjb)]
    have hmap : ∀ k < (Ms.map (fun M => M.getD j [])).length,
        ((Ms.map (fun M => M.getD j [])).getD k []).length = ws.getD k 0 := by
      intro k hk
      rw [List.length_map] at hk
      rw [getD_map_lt _ _ k hk []]
      exact wfMat_getD_length (hwf k hk) j hjb
    have := flatten_pySlice (Ms.map (fun M => M.getD j [])) ws
      (by rw [List.length_map]; exact hlen) hmap i
      (by rw [List.length_map]; exact hi)
    rw [this, getD_map_lt _ _ i hi []]

theorem LinearChunk.forward_noIds (e : ℚ → ℚ) (c : LinearChunk) (emb : Mat) :
    LinearChunk.forward e c emb .noIds = some (denseShardOut e c emb) := rfl

theorem effWeight_length (e : ℚ → ℚ) (W A : Mat) :
    (effWeight e W A).length = min W.length A.length := by
  unfold effWeight
  rw [List.length_zipWith]

theorem mmT_addbias_wf (emb W2 : Mat) (bias : List ℚ) (w : ℕ)
    (hW : W2.length = w) (hb : bias.length = w) :
    wfMat ((mmT emb W2).map (fun row => List.zipWith (· + ·) row bias))
      emb.length w := by
  apply wfMat_of_getD
  · simp [mmT]
  · intro i hi
    unfold mmT
    rw [List.map_map, getD_map_lt _ _ i hi []]
    simp only [Function.comp]
    rw [List.length_zipWith, List.length_map, hW, hb, min_self]

theorem denseShardOut_wf (e : ℚ → ℚ) (c : LinearChunk) (emb : Mat)
    (hbias : c.bias.length = c.weight.length)
    (hatt : c.attention_weights.length = c.weight.length) :
    wfMat (denseShardOut e c emb) emb.length c.weight.length := by
  unfold denseShardOut
  apply mmT_addbias_wf
  · rw [effWeight_length, hatt, min_self]
  · exact hbias

theorem sum_take_succ (ws : List ℕ) (i : ℕ) (hi : i < ws.length) :
    (ws.take (i + 1)).sum = (ws.take i).sum + ws.getD i 0 := by
  rw [List.take_succ, List.sum_append, List.getElem?_eq_getElem hi]
  rw [List.getD_eq_getElem _ _ hi]
  simp

/-- The cumulative widths of the shard outputs are the partition starts:
with `ws i = end_i - start_i`, `sum (take i ws) = min (i*ps) L`. -/
theorem partition_offsets (L N : ℕ) (ws : List ℕ) (_hN : 1 ≤ N)
    (hlen : ws.length = N)
    (hgood : ∀ i < N, i * partitionSize L N ≤ L)
    (hsz : ∀ i < N, ws.getD i 0 =
      ((partitionIndices L N).getD i (0, 0)).2 -
        ((partitionIndices L N).getD i (0, 0)).1) :
    ∀ i ≤ N, (ws.take i).sum = min (i * partitionSize L N) L := by
  intro i
  induction i with
  | zero => intro _; simp
  | succ i2 ih =>
    intro hi
    have hi2 : i2 < N := by omega
    rw [sum_take_succ ws i2 (by omega), ih (by omega), hsz i2 hi2,
      partitionIndices_getD L N i2 hi2]
    have hg := hgood i2 hi2
    rw [Nat.succ_mul]
    omega

/-- C2: in dense mode the distributed classifier returns a full
`(batch, num_labels)` matrix whose columns in partition range
`[start_i, end_i)` are exactly shard `i`'s standalone `LinearChunk`
forward (with `label_ids = None`) on the same embedding: the dense
forward is the column-wise concatenation of the shard outputs in
partition order.  The hypotheses record the construction invariant
(shard `i` holds `end_i - start_i` parameter rows) and constructibility
of the partition table (every start offset at most `output_size`). -/
theorem C2_dense_shard_composability (e : ℚ → ℚ) (L : ℕ)
    (cls : List LinearChunk) (emb : Mat)
    (hN : 1 ≤ cls.length)
    (hgood : ∀ i < cls.length, i * partitionSize L cls.length ≤ L)
    (hsz : ∀ i < cls.length,
      ((cls.getD i default).weight).length =
        ((partitionIndices L cls.length).getD i (0, 0)).2 -
          ((partitionIndices L cls.length).getD i (0, 0)).1)
    (hbias : ∀ c ∈ cls, c.bias.length = c.weight.length)
    (hatt : ∀ c ∈ cls, c.attention_weights.length = c.weight.length) :
    ∃ M, LinearDistributed.forward e L cls emb .noIds = some M ∧
      wfMat M emb.length L ∧
      ∀ i < cls.length,
        some (M.map (pySlice
            ((partitionIndices L cls.length).getD i (0, 0)).1
            ((partitionIndices L cls.length).getD i (0, 0)).2)) =
          LinearChunk.forward e (cls.getD i default) emb .noIds := by
  set N := cls.length with hNdef
  set ps := partitionSize L N with hps
  have hforward : LinearDistributed.forward e L cls emb .noIds =
      some (hconcat (cls.map (fun c => denseShardOut e c emb))) := by
    show (optMap (fun c => LinearChunk.forward e c emb .noIds) cls).bind
        (fun xs => some (hconcat xs)) = _
    have hfun : (fun c => LinearChunk.forward e c emb .noIds) =
        (fun c => some (denseShardOut e c emb)) := rfl
    rw [hfun, optMap_of_some]
    rfl
  set Ms := cls.map (fun c => denseShardOut e c emb) with hMs
  set ws := cls.map (fun c => c.weight.length) with hws
  have hwslen : ws.length = N := by rw [hws]; simp [hNdef]
  have hwsget : ∀ i < N, ws.getD i 0 = (cls.getD i default).weight.length := by
    intro i hi
    rw [hws, getD_map_lt _ _ i hi default]
  have hwfi : ∀ i < Ms.length, wfMat (Ms.getD i []) emb.length (ws.getD i 0) := by
    intro i hi
    rw [List.length_map] at hi
    rw [hMs, getD_map_lt _ _ i hi default, hwsget i hi]
    have hc : cls.getD i default ∈ cls := by
      rw [List.getD_eq_getElem _ _ hi]
      exact List.getElem_mem _
    exact denseShardOut_wf e _ emb (hbias _ hc) (hatt _ hc)
  have hoff := partition_offsets L N ws hN hwslen hgood
    (fun i hi => by rw [hwsget i hi, hsz i hi])
  have hMslen : Ms.length = N := by rw [hMs]; simp [hNdef]
  have hMsne : Ms ≠ [] := by
    intro hc
    have h0 : Ms.length = 0 := by rw [hc]; rfl
    rw [hMslen] at h0
    omega
  have hsum : ws.sum = L := by
    have h2 := hoff N (le_refl N)
    rw [List.take_of_length_le (le_of_eq hwslen)] at h2
    rw [h2, min_eq_right (le_mul_partitionSize L N hN)]
  refine ⟨hconcat Ms, hforward, ?_, ?_⟩
  · rw [← hsum]
    exact hconcat_wf Ms ws emb.length (by rw [hMslen, hwslen]) hMsne hwfi
  · intro i hi
    have hsl := hconcat_slice Ms ws emb.length (by rw [hMslen, hwslen])
      hMsne hwfi i (by rw [hMslen]; exact hi)
    have hstart : (ws.take i).sum = i * ps := by
      rw [hoff i (le_of_lt hi), min_eq_left (hgood i hi)]
    have hpI := partitionIndices_getD L N i hi
    have hshift : (pySlice ((ws.take i).sum)
          ((ws.take i).sum + ws.getD i 0) : List ℚ → List ℚ) =
        (pySlice ((partitionIndices L N).getD i (0, 0)).1
          ((partitionIndices L N).getD i (0, 0)).2 : List ℚ → List ℚ) := by
      funext r
      unfold pySlice
      rw [hstart, hwsget i hi, hsz i hi, hpI]
      dsimp only
      simp only [← hps]
      congr 1
      omega
    rw [hshift] at hsl
    rw [LinearChunk.forward_noIds, hsl, hMs, getD_map_lt _ _ i hi default]

theorem C2_dense_witness :
    ∃ M, LinearDistributed.forward id 4
        [⟨[[1], [2]], [1, 2], [[0, 0, 0], [0, 0, 0]]⟩,
         ⟨[[3], [4]], [3, 4], [[0, 0, 0], [0, 0, 0]]⟩]
        [[1, 1, 1]] .noIds = some M ∧
      wfMat M 1 4 ∧
      ∀ i < 2,
        some (M.map (pySlice
            ((partitionIndices 4 2).getD i (0, 0)).1
            ((partitionIndices 4 2).getD i (0, 0)).2)) =
          LinearChunk.forward id
            (([⟨[[1], [2]], [1, 2], [[0, 0, 0], [0, 0, 0]]⟩,
               ⟨[[3], [4]], [3, 4], [[0, 0, 0], [0, 0, 0]]⟩] :
                List LinearChunk).getD i default)
            [[1, 1, 1]] .noIds :=
  C2_dense_shard_composability id 4
    [⟨[[1], [2]], [1, 2], [[0, 0, 0], [0, 0, 0]]⟩,
     ⟨[[3], [4]], [3, 4], [[0, 0, 0], [0, 0, 0]]⟩]
    [[1, 1, 1]] (by decide) (by decide) (by decide) (by decide) (by decide)

/- ### 1-D (shared candidate list) mode -/

theorem gatherRows_isSome (M : Mat) (ids : List ℕ)
    (h : ∀ i ∈ ids, i < M.length) : ∃ R, gatherRows M ids = some R := by
  apply optMap_isSome
  intro i hi
  exact ⟨_, List.getElem?_eq_getElem (h i hi)⟩

theorem gatherVec_isSome (v : List ℚ) (ids : List ℕ)
    (h : ∀ i ∈ ids, i < v.length) : ∃ b, gatherVec v ids = some b := by
  apply optMap_isSome
  intro i hi
  exact ⟨_, List.getElem?_eq_getElem (h i hi)⟩

theorem chunk_forward_oneD_eq (e : ℚ → ℚ) (c : LinearChunk) (emb : Mat)
    (ids : List ℕ) (w aw : Mat) (b : List ℚ)
    (hw : gatherRows c.weight ids = some w)
    (ha : gatherRows c.attention_weights ids = some aw)
    (hb : gatherVec c.bias ids = some b) :
    LinearChunk.forward e c emb (.oneD ids) =
      some ((mmT emb (effWeight e w aw)).map
        (fun row => List.zipWith (· + ·) row b)) := by
  show (do
    let w2 ← gatherRows c.weight ids
    let aw2 ← gatherRows c.attention_weights ids
    let b2 ← gatherVec c.bias ids
    pure ((mmT emb (effWeight e w2 aw2)).map
      (fun row => List.zipWith (· + ·) row b2))) = _
  rw [hw, ha, hb]
  rfl

/-- A single shard's 1-D forward succeeds on in-range local row indices
and returns one output column per requested id. -/
theorem chunk_oneD_some (e : ℚ → ℚ) (c : LinearChunk) (emb : Mat)
    (ids : List ℕ) (hval : ∀ id ∈ ids, id < c.weight.length)
    (hbias : c.bias.length = c.weight.length)
    (hatt : c.attention_weights.length = c.weight.length) :
    ∃ X, LinearChunk.forward e c emb (.oneD ids) = some X ∧
      wfMat X emb.length ids.length := by
  obtain ⟨w, hw⟩ := gatherRows_isSome c.weight ids hval
  obtain ⟨aw, ha⟩ := gatherRows_isSome c.attention_weights ids
    (fun i hi => by rw [hatt]; exact hval i hi)
  obtain ⟨b, hb⟩ := gatherVec_isSome c.bias ids
    (fun i hi => by rw [hbias]; exact hval i hi)
  refine ⟨_, chunk_forward_oneD_eq e c emb ids w aw b hw ha hb, ?_⟩
  apply mmT_addbias_wf
  · rw [effWeight_length, optMap_length _ _ _ hw, optMap_length _ _ _ ha,
      min_self]
  · exact optMap_length _ _ _ hb

theorem distributed_forward_oneD_eq (e : ℚ → ℚ) (L : ℕ)
    (cls : List LinearChunk) (emb : Mat) (ids : List ℕ) :
    LinearDistributed.forward e L cls emb (.oneD ids) =
      (optMap (fun ic => LinearChunk.forward e ic.2 emb (.oneD (pySlice
          ((partitionIndices L cls.length).getD ic.1 (0, 0)).1
          ((partitionIndices L cls.length).getD ic.1 (0, 0)).2 ids)))
        cls.enum).bind (fun xs => some (hconcat xs)) := rfl

theorem enum_getD (l : List α) (k : ℕ) (hk : k < l.length) (d : α) :
    l.enum.getD k (0, d) = (k, l.getD k d) := by
  rw [List.getD_eq_getElem _ _ (by rw [List.enum_length]; exact hk),
    List.getElem_enum, List.getD_eq_getElem _ _ hk]

theorem pySlice_length (s t : ℕ) (l : List α) :
    (pySlice s t l).length = min (t - s) (l.length - s) := by
  unfold pySlice
  rw [List.length_take, List.length_drop]

/-- Cumulative widths of the 1-D shard outputs: the slices of a length-`K`
id list taken at the partition positions have cumulative length
`min (i*ps) K`. -/
theorem slice_offsets (L N K : ℕ) (ws : List ℕ) (_hN : 1 ≤ N)
    (hlen : ws.length = N)
    (hgood : ∀ i < N, i * partitionSize L N ≤ L) (hK : K ≤ L)
    (hsz : ∀ i < N, ws.getD i 0 =
      min (((partitionIndices L N).getD i (0, 0)).2 -
            ((partitionIndices L N).getD i (0, 0)).1)
          (K - ((partitionIndices L N).getD i (0, 0)).1)) :
    ∀ i ≤ N, (ws.take i).sum = min (i * partitionSize L N) K := by
  intro i
  induction i with
  | zero => intro _; simp
  | succ i2 ih =>
    intro hi
    have hi2 : i2 < N := by omega
    rw [sum_take_succ ws i2 (by omega), ih (by omega), hsz i2 hi2,
      partitionIndices_getD L N i2 hi2]
    dsimp only
    have hg := hgood i2 hi2
    rw [Nat.succ_mul]
    omega

/-- C3: the claim fails as stated for genuinely global label ids.  With
`num_labels = 4`, two shards of two label rows each and the pre-bucketed
global id list `[0,1,2,3]` (ids 0,1 owned by shard 0; ids 2,3 owned by
shard 1), the forward raises an `IndexError` (modelled `none`): shard 1
indexes its own 2-row `weight`/`bias`/`attention` tensors with the global
ids 2 and 3, which are out of range — the shards expect local row
indices, not global label ids. -/
theorem C3_oneD_counterexample :
    LinearDistributed.forward id 4
      [⟨[[1], [2]], [1, 2], [[0, 0, 0], [0, 0, 0]]⟩,
       ⟨[[3], [4]], [3, 4], [[0, 0, 0], [0, 0, 0]]⟩]
      [[1, 1, 1]] (.oneD [0, 1, 2, 3]) = none := by decide

/-- C3 (amended): for a 1-D id list whose partition-range slices hold
in-range LOCAL row indices of the owning shard (the id minus the shard's
start offset, not the global id), the distributed forward routes slice
`i` to shard `i`, every shard gathers its own weight/bias/attention rows
at those indices, the result is the column-wise concatenation of the
standalone shard outputs, and — for `len(label_ids) ≤ num_labels` — it
has exactly one output column per entry of `label_ids`. -/
theorem C3_oneD_routing_amended (e : ℚ → ℚ) (L : ℕ)
    (cls : List LinearChunk) (emb : Mat) (ids : List ℕ)
    (hN : 1 ≤ cls.length)
    (hgood : ∀ i < cls.length, i * partitionSize L cls.length ≤ L)
    (hK : ids.length ≤ L)
    (hbias : ∀ c ∈ cls, c.bias.length = c.weight.length)
    (hatt : ∀ c ∈ cls, c.attention_weights.length = c.weight.length)
    (hval : ∀ i < cls.length, ∀ id ∈ pySlice
        ((partitionIndices L cls.length).getD i (0, 0)).1
        ((partitionIndices L cls.length).getD i (0, 0)).2 ids,
        id < (cls.getD i default).weight.length) :
    ∃ M, LinearDistributed.forward e L cls emb (.oneD ids) = some M ∧
      wfMat M emb.length ids.length ∧
      ∀ i < cls.length,
        some (M.map (pySlice
            (min ((partitionIndices L cls.length).getD i (0, 0)).1 ids.length)
            (min ((partitionIndices L cls.length).getD i (0, 0)).1 ids.length
              + (pySlice ((partitionIndices L cls.length).getD i (0, 0)).1
                  ((partitionIndices L cls.length).getD i (0, 0)).2 ids).length))) =
          LinearChunk.forward e (cls.getD i default) emb
            (.oneD (pySlice ((partitionIndices L cls.length).getD i (0, 0)).1
                ((partitionIndices L cls.length).getD i (0, 0)).2 ids)) := by
  set N := cls.length with hNdef
  set ps := partitionSize L N with hps
  have hmemD : ∀ k, k < N → cls.getD k default ∈ cls := by
    intro k hk
    rw [List.getD_eq_getElem _ _ hk]
    exact List.getElem_mem _
  -- each shard's forward on its slice succeeds
  have hshard : ∀ k, k < N → ∃ X,
      LinearChunk.forward e (cls.getD k default) emb
        (.oneD (pySlice ((partitionIndices L N).getD k (0, 0)).1
            ((partitionIndices L N).getD k (0, 0)).2 ids)) = some X ∧
      wfMat X emb.length
        (pySlice ((partitionIndices L N).getD k (0, 0)).1
            ((partitionIndices L N).getD k (0, 0)).2 ids).length := by
    intro k hk
    exact chunk_oneD_some e _ emb _ (hval k hk)
      (hbias _ (hmemD k hk)) (hatt _ (hmemD k hk))
  -- the loop over shards succeeds
  obtain ⟨xs, hxs⟩ : ∃ xs, optMap (fun ic =>
      LinearChunk.forward e ic.2 emb (.oneD (pySlice
        ((partitionIndices L N).getD ic.1 (0, 0)).1
        ((partitionIndices L N).getD ic.1 (0, 0)).2 ids))) cls.enum = some xs := by
    apply optMap_isSome
    intro a ha
    rw [List.mem_iff_getElem] at ha
    obtain ⟨k, hk, rfl⟩ := ha
    rw [List.enum_length] at hk
    rw [List.getElem_enum]
    obtain ⟨X, hX, _⟩ := hshard k hk
    rw [← List.getD_eq_getElem cls default hk]
    exact ⟨X, hX⟩
  have hxslen : xs.length = N := by
    rw [optMap_length _ _ _ hxs, List.enum_length]
  -- each entry of the loop result is the shard's standalone output
  have hentry : ∀ k, k < N →
      LinearChunk.forward e (cls.getD k default) emb
        (.oneD (pySlice ((partitionIndices L N).getD k (0, 0)).1
            ((partitionIndices L N).getD k (0, 0)).2 ids)) =
        some (xs.getD k []) := by
    intro k hk
    have h2 := optMap_getD _ _ _ hxs k (by rw [List.enum_length]; exact hk)
      (0, default) []
    rw [enum_getD cls k hk default] at h2
    exact h2
  have hwfk : ∀ k, k < xs.length → wfMat (xs.getD k [])
      emb.length (((List.range N).map (fun j =>
        (pySlice ((partitionIndices L N).getD j (0, 0)).1
          ((partitionIndices L N).getD j (0, 0)).2 ids).length)).getD k 0) := by
    intro k hk
    rw [hxslen] at hk
    rw [getD_range_map _ _ _ _ hk]
    obtain ⟨X, hX, hXwf⟩ := hshard k hk
    rw [hentry k hk] at hX
    have h3 : xs.getD k [] = X := Option.some.inj hX
    rw [h3]
    exact hXwf
  set ws := (List.range N).map (fun j =>
    (pySlice ((partitionIndices L N).getD j (0, 0)).1
      ((partitionIndices L N).getD j (0, 0)).2 ids).length) with hws
  have hwslen : ws.length = N := by rw [hws]; simp
  have hoff := slice_offsets L N ids.length ws hN hwslen hgood hK (by
    intro i hi
    rw [hws, getD_range_map _ _ _ _ hi, pySlice_length])
  have hxsne : xs ≠ [] := by
    intro hc
    have h0 : xs.length = 0 := by rw [hc]; rfl
    rw [hxslen] at h0
    omega
  have hsum : ws.sum = ids.length := by
    have h2 := hoff N (le_refl N)
    rw [List.take_of_length_le (le_of_eq hwslen)] at h2
    rw [h2, min_eq_right (le_trans hK (le_mul_partitionSize L N hN))]
  refine ⟨hconcat xs, ?_, ?_, ?_⟩
  · rw [distributed_forward_oneD_eq, hxs]
    rfl
  · rw [← hsum]
    exact hconcat_wf xs ws emb.length (by rw [hxslen, hwslen]) hxsne hwfk
  · intro i hi
    have hsl := hconcat_slice xs ws emb.length (by rw [hxslen, hwslen])
      hxsne hwfk i (by rw [hxslen]; exact hi)
    have hstart : (ws.take i).sum =
        min ((partitionIndices L N).getD i (0, 0)).1 ids.length := by
      rw [hoff i (le_of_lt hi), partitionIndices_getD L N i hi]
    have hwsi : ws.getD i 0 =
        (pySlice ((partitionIndices L N).getD i (0, 0)).1
          ((partitionIndices L N).getD i (0, 0)).2 ids).length := by
      rw [hws, getD_range_map _ _ _ _ hi]
    rw [hstart, hwsi] at hsl
    rw [hsl]
    exact (hentry i hi).symm

theorem C3_oneD_witness :
    ∃ M, LinearDistributed.forward id 4
        [⟨[[1], [2]], [1, 2], [[0, 0, 0], [0, 0, 0]]⟩,
         ⟨[[3], [4]], [3, 4], [[0, 0, 0], [0, 0, 0]]⟩]
        [[1, 1, 1]] (.oneD [0, 1, 0, 1]) = some M ∧
      wfMat M 1 4 ∧
      ∀ i < 2,
        some (M.map (pySlice
            (min ((partitionIndices 4 2).getD i (0, 0)).1 4)
            (min ((partitionIndices 4 2).getD i (0, 0)).1 4
              + (pySlice ((partitionIndices 4 2).getD i (0, 0)).1
                  ((partitionIndices 4 2).getD i (0, 0)).2
                  [0, 1, 0, 1]).length))) =
          LinearChunk.forward id
            (([⟨[[1], [2]], [1, 2], [[0, 0, 0], [0, 0, 0]]⟩,
               ⟨[[3], [4]], [3, 4], [[0, 0, 0], [0, 0, 0]]⟩] :
                List LinearChunk).getD i default)
            [[1, 1, 1]]
            (.oneD (pySlice ((partitionIndices 4 2).getD i (0, 0)).1
                ((partitionIndices 4 2).getD i (0, 0)).2 [0, 1, 0, 1])) :=
  C3_oneD_routing_amended id 4
    [⟨[[1], [2]], [1, 2], [[0, 0, 0], [0, 0, 0]]⟩,
     ⟨[[3], [4]], [3, 4], [[0, 0, 0], [0, 0, 0]]⟩]
    [[1, 1, 1]] [0, 1, 0, 1]
    (by decide) (by decide) (by decide) (by decide) (by decide) (by decide)

/- ### 2-D (per-example candidate matrix) mode -/

theorem sum_map_const (l : List α) (f : α → ℕ) (c : ℕ)
    (h : ∀ x ∈ l, f x = c) : (l.map f).sum = l.length * c := by
  induction l with
  | nil => simp
  | cons x xs ih =>
    rw [List.map_cons, List.sum_cons, h x (by simp),
      ih (fun y hy => h y (by simp [hy])), List.length_cons, Nat.succ_mul]
    omega

theorem chunk_forward_twoD_eq (e : ℚ → ℚ) (c : LinearChunk) (emb : Mat)
    (ids : List (List ℕ)) (sw sa : Mat) (sb : List ℚ)
    (hw : gatherRows c.weight ids.flatten = some sw)
    (hb : gatherVec c.bias ids.flatten = some sb)
    (ha : gatherRows c.attention_weights ids.flatten = some sa) :
    LinearChunk.forward e c emb (.twoD ids) =
      some (twoDCore e emb sw sa sb ids.length (ids.head?.getD []).length) := by
  show (do
    let sw2 ← gatherRows c.weight ids.flatten
    let sb2 ← gatherVec c.bias ids.flatten
    let sa2 ← gatherRows c.attention_weights ids.flatten
    pure (twoDCore e emb sw2 sa2 sb2 ids.length
      (ids.head?.getD []).length)) = _
  rw [hw, hb, ha]
  rfl

theorem twoDCore_wf (e : ℚ → ℚ) (emb sw sa : Mat) (sb : List ℚ) (b m : ℕ)
    (hm : ¬ (m = 1 ∧ 2 ≤ b)) (hsb : sb.length = b * m) :
    wfMat (twoDCore e emb sw sa sb b m) b m := by
  unfold twoDCore
  rw [if_neg hm]
  apply wfMat_of_getD
  · simp
  · intro i hi
    rw [getD_range_map _ _ _ _ hi, List.length_zipWith, List.length_map,
      List.length_range, pySlice_length, hsb]
    have h2 : (i + 1) * m ≤ b * m := Nat.mul_le_mul_right m (by omega)
    rw [Nat.succ_mul] at h2
    omega

/-- A single shard's 2-D forward succeeds on an in-range `(b, m)` candidate
matrix with `m ≥ 2` and returns a `(b, m)` logit matrix. -/
theorem chunk_twoD_some (e : ℚ → ℚ) (c : LinearChunk) (emb : Mat)
    (ids : List (List ℕ)) (m : ℕ)
    (hne : ids ≠ []) (hrows : ∀ row ∈ ids, row.length = m) (hm2 : 2 ≤ m)
    (hval : ∀ row ∈ ids, ∀ id ∈ row, id < c.weight.length)
    (hbias : c.bias.length = c.weight.length)
    (hatt : c.attention_weights.length = c.weight.length) :
    ∃ X, LinearChunk.forward e c emb (.twoD ids) = some X ∧
      wfMat X ids.length m := by
  have hflat : ∀ id ∈ ids.flatten, id < c.weight.length := by
    intro id hid
    rw [List.mem_flatten] at hid
    obtain ⟨row, hrow, hidr⟩ := hid
    exact hval row hrow id hidr
  obtain ⟨sw, hw⟩ := gatherRows_isSome c.weight ids.flatten hflat
  obtain ⟨sb, hb⟩ := gatherVec_isSome c.bias ids.flatten
    (fun i hi => by rw [hbias]; exact hflat i hi)
  obtain ⟨sa, ha⟩ := gatherRows_isSome c.attention_weights ids.flatten
    (fun i hi => by rw [hatt]; exact hflat i hi)
  have hhead : (ids.head?.getD []).length = m := by
    rcases ids with _ | ⟨r0, rest⟩
    · exact absurd rfl hne
    · simpa using hrows r0 (by simp)
  have hsb : sb.length = ids.length * m := by
    rw [optMap_length _ _ _ hb, List.length_flatten]
    exact sum_map_const ids List.length m hrows
  refine ⟨twoDCore e emb sw sa sb ids.length (ids.head?.getD []).length,
    chunk_forward_twoD_eq e c emb ids sw sa sb hw hb ha, ?_⟩
  rw [hhead]
  exact twoDCore_wf e emb sw sa sb ids.length m (by omega) hsb

theorem distributed_forward_twoD_eq (e : ℚ → ℚ) (L : ℕ)
    (cls : List LinearChunk) (emb : Mat) (ids : List (List ℕ)) :
    LinearDistributed.forward e L cls emb (.twoD ids) =
      (optMap (fun ic => LinearChunk.forward e ic.2 emb
          (.twoD (ids.map (fun row => pySlice
            (ic.1 * ((ids.head?.getD []).length / cls.length))
            ((ic.1 + 1) * ((ids.head?.getD []).length / cls.length)) row))))
        cls.enum).bind (fun xs => some (hconcat xs)) := rfl

/-- C5: the claim fails as stated: a `(1, 5)` candidate matrix with 2
shards is NOT a fatal shape error — the forward silently drops the fifth
candidate column and returns a `(1, 4)` logit matrix. -/
theorem C5_twoD_counterexample :
    LinearDistributed.forward id 4
      [⟨[[1], [2]], [1, 2], [[0, 0, 0], [0, 0, 0]]⟩,
       ⟨[[3], [4]], [3, 4], [[0, 0, 0], [0, 0, 0]]⟩]
      [[1, 1, 1]] (.twoD [[0, 1, 0, 1, 0]]) = some [[1, 2, 3, 4]] := by
  norm_num [LinearDistributed.forward, LinearChunk.forward, optMap,
    gatherRows, gatherVec, twoDCore, effWeight, softmaxRow, mmT, dotProd,
    pySlice, hconcat, hcat2, List.range_succ]

theorem getD_replicate (n : ℕ) (c : ℕ) (k d : ℕ) (hk : k < n) :
    (List.replicate n c).getD k d = c := by
  rw [List.getD_eq_getElem _ _ (by simpa using hk), List.getElem_replicate]

/-- C5 (amended): a candidate-column count `K` not divisible by the shard
count `N` is NOT a fatal error.  With `pl := K / N` (assumed `≥ 2`, which
avoids a separate `squeeze()` defect at one candidate per shard), each
shard receives `pl` contiguous candidate columns, the trailing `K mod N`
columns are silently dropped, and the output is a `(batch, N*pl)` matrix —
exactly `K` columns when `N ∣ K` and `K - K mod N` columns otherwise. -/
theorem C5_twoD_amended (e : ℚ → ℚ) (L : ℕ) (cls : List LinearChunk)
    (emb : Mat) (ids : List (List ℕ)) (K : ℕ)
    (hN : 1 ≤ cls.length)
    (hne : ids ≠ [])
    (hrows : ∀ row ∈ ids, row.length = K)
    (hpl : 2 ≤ K / cls.length)
    (hbias : ∀ c ∈ cls, c.bias.length = c.weight.length)
    (hatt : ∀ c ∈ cls, c.attention_weights.length = c.weight.length)
    (hval : ∀ i < cls.length, ∀ row ∈ ids, ∀ id ∈
        pySlice (i * (K / cls.length)) ((i + 1) * (K / cls.length)) row,
        id < (cls.getD i default).weight.length) :
    ∃ M, LinearDistributed.forward e L cls emb (.twoD ids) = some M ∧
      wfMat M ids.length (cls.length * (K / cls.length)) := by
  set N := cls.length with hNdef
  set pl := K / N with hpldef
  have hheadK : (ids.head?.getD []).length = K := by
    rcases ids with _ | ⟨r0, rest⟩
    · exact absurd rfl hne
    · simpa using hrows r0 (by simp)
  have hKpl : N * pl ≤ K := by
    rw [hpldef, Nat.mul_comm]
    exact Nat.div_mul_le_self K N
  have hmemD : ∀ k, k < N → cls.getD k default ∈ cls := by
    intro k hk
    rw [List.getD_eq_getElem _ _ hk]
    exact List.getElem_mem _
  have hslicerows : ∀ k, k < N →
      ∀ row2 ∈ ids.map (fun row => pySlice (k * pl) ((k + 1) * pl) row),
      row2.length = pl := by
    intro k hk row2 hrow2
    rw [List.mem_map] at hrow2
    obtain ⟨row, hrow, rfl⟩ := hrow2
    rw [pySlice_length, hrows row hrow]
    have h2 : (k + 1) * pl ≤ N * pl := Nat.mul_le_mul_right pl (by omega)
    rw [Nat.succ_mul] at h2 ⊢
    omega
  have hslne : ∀ k : ℕ,
      ids.map (fun row => pySlice (k * pl) ((k + 1) * pl) row) ≠ [] := by
    intro k hc
    rw [List.map_eq_nil_iff] at hc
    exact hne hc
  have hshard : ∀ k, k < N → ∃ X,
      LinearChunk.forward e (cls.getD k default) emb
        (.twoD (ids.map (fun row => pySlice
          (k * ((ids.head?.getD []).length / cls.length))
          ((k + 1) * ((ids.head?.getD []).length / cls.length)) row))) =
        some X ∧
      wfMat X ids.length pl := by
    intro k hk
    rw [hheadK]
    obtain ⟨X, hX, hXwf⟩ := chunk_twoD_some e (cls.getD k default) emb
      (ids.map (fun row => pySlice (k * pl) ((k + 1) * pl) row)) pl
      (hslne k) (hslicerows k hk) hpl
      (by
        intro row2 hrow2 id hid
        rw [List.mem_map] at hrow2
        obtain ⟨row, hrow, rfl⟩ := hrow2
        exact hval k hk row hrow id hid)
      (hbias _ (hmemD k hk)) (hatt _ (hmemD k hk))
    refine ⟨X, hX, ?_⟩
    rw [List.length_map] at hXwf
    exact hXwf
  obtain ⟨xs, hxs⟩ : ∃ xs, optMap (fun ic =>
      LinearChunk.forward e ic.2 emb (.twoD (ids.map (fun row => pySlice
        (ic.1 * ((ids.head?.getD []).length / cls.length))
        ((ic.1 + 1) * ((ids.head?.getD []).length / cls.length)) row))))
      cls.enum = some xs := by
    apply optMap_isSome
    intro a ha
    rw [List.mem_iff_getElem] at ha
    obtain ⟨k, hk, rfl⟩ := ha
    rw [List.enum_length] at hk
    rw [List.getElem_enum]
    obtain ⟨X, hX, _⟩ := hshard k hk
    rw [← List.getD_eq_getElem cls default hk]
    exact ⟨X, hX⟩
  have hxslen : xs.length = N := by
    rw [optMap_length _ _ _ hxs, List.enum_length]
  have hentry : ∀ k, k < N →
      LinearChunk.forward e (cls.getD k default) emb
        (.twoD (ids.map (fun row => pySlice
          (k * ((ids.head?.getD []).length / cls.length))
          ((k + 1) * ((ids.head?.getD []).length / cls.length)) row))) =
        some (xs.getD k []) := by
    intro k hk
    have h2 := optMap_getD _ _ _ hxs k (by rw [List.enum_length]; exact hk)
      (0, default) []
    rw [enum_getD cls k hk default] at h2
    exact h2
  have hwfk : ∀ k, k < xs.length → wfMat (xs.getD k [])
      ids.length ((List.replicate N pl).getD k 0) := by
    intro k hk
    rw [hxslen] at hk
    rw [getD_replicate N pl k 0 hk]
    obtain ⟨X, hX, hXwf⟩ := hshard k hk
    rw [hentry k hk] at hX
    have h3 : xs.getD k [] = X := Option.some.inj hX
    rw [h3]
    exact hXwf
  have hxsne : xs ≠ [] := by
    intro hc
    have h0 : xs.length = 0 := by rw [hc]; rfl
    rw [hxslen] at h0
    omega
  refine ⟨hconcat xs, ?_, ?_⟩
  · rw [distributed_forward_twoD_eq, hxs]
    rfl
  · have hsum : (List.replicate N pl).sum = N * pl := by
      rw [List.sum_replicate, smul_eq_mul]
    rw [← hsum]
    exact hconcat_wf xs (List.replicate N pl) ids.length
      (by rw [hxslen, List.length_replicate]) hxsne hwfk

theorem C5_twoD_witness :
    ∃ M, LinearDistributed.forward id 4
        [⟨[[1], [2]], [1, 2], [[0, 0, 0], [0, 0, 0]]⟩,
         ⟨[[3], [4]], [3, 4], [[0, 0, 0], [0, 0, 0]]⟩]
        [[1, 1, 1]] (.twoD [[0, 1, 0, 1]]) = some M ∧
      wfMat M 1 (2 * (4 / 2)) :=
  C5_twoD_amended id 4
    [⟨[[1], [2]], [1, 2], [[0, 0, 0], [0, 0, 0]]⟩,
     ⟨[[3], [4]], [3, 4], [[0, 0, 0], [0, 0, 0]]⟩]
    [[1, 1, 1]] [[0, 1, 0, 1]] 4
    (by decide) (by decide) (by decide) (by decide) (by decide) (by decide)
    (by decide)

theorem range_map_getD (l : List ℚ) (w : ℕ) (hl : l.length = w) :
    (List.range w).map (fun jj => l.getD jj 0) = l := by
  apply List.ext_getElem
  · simp [hl]
  · intro i h1 h2
    rw [List.getElem_map, List.getElem_range,
      List.getD_eq_getElem _ _ (by omega)]

theorem transposeMat_wf (X : Mat) (b w : ℕ) (hwf : wfMat X b w)
    (hb : 1 ≤ b) : wfMat (transposeMat X) w b := by
  rcases X with _ | ⟨r0, rest⟩
  · exfalso
    have h0 := hwf.1
    simp at h0
    omega
  · have hr0 : r0.length = w := hwf.2 r0 (by simp)
    constructor
    · show ((List.range r0.length).map _).length = w
      rw [List.length_map, List.length_range, hr0]
    · intro r hr
      replace hr : r ∈ (List.range r0.length).map
          (fun j => (r0 :: rest).map (fun row => row.getD j 0)) := hr
      rw [List.mem_map] at hr
      obtain ⟨j, _, rfl⟩ := hr
      rw [List.length_map]
      exact hwf.1

theorem col_transposeMat (X : Mat) (b w : ℕ) (hwf : wfMat X b w)
    (hb : 1 ≤ b) (j : ℕ) (hj : j < b) :
    (transposeMat X).map (fun row => row.getD j 0) = X.getD j [] := by
  rcases X with _ | ⟨r0, rest⟩
  · exfalso
    have h0 := hwf.1
    simp at h0
    omega
  · have hr0 : r0.length = w := hwf.2 r0 (by simp)
    show ((List.range r0.length).map
        (fun jj => (r0 :: rest).map (fun row => row.getD jj 0))).map
        (fun row => row.getD j 0) = _
    rw [List.map_map]
    have hcomp : ((fun row => row.getD j 0) ∘
        (fun jj => (r0 :: rest).map (fun row => row.getD jj 0))) =
        fun jj => ((r0 :: rest).getD j []).getD jj 0 := by
      funext jj
      simp only [Function.comp]
      rw [getD_map_lt _ _ j (by rw [hwf.1]; exact hj) []]
    rw [hcomp, range_map_getD _ _ ?_]
    rw [wfMat_getD_length hwf j hj, hr0]

theorem matAdd_getD (A B : Mat) (j : ℕ) (hA : j < A.length)
    (hB : j < B.length) :
    (matAdd A B).getD j [] =
      List.zipWith (· + ·) (A.getD j []) (B.getD j []) := by
  unfold matAdd
  rw [List.getD_eq_getElem _ _ (by rw [List.length_zipWith]; omega),
    List.getElem_zipWith, List.getD_eq_getElem _ _ hA,
    List.getD_eq_getElem _ _ hB]

theorem matAdd_wf (A B : Mat) (m n : ℕ) (hA : wfMat A m n)
    (hB : wfMat B m n) : wfMat (matAdd A B) m n := by
  apply wfMat_of_getD
  · unfold matAdd
    rw [List.length_zipWith, hA.1, hB.1, min_self]
  · intro i hi
    rw [matAdd_getD A B i (by rw [hA.1]; exact hi) (by rw [hB.1]; exact hi),
      List.length_zipWith, wfMat_getD_length hA i hi,
      wfMat_getD_length hB i hi, min_self]

theorem smulMat_wf (c : ℚ) (M : Mat) (m n : ℕ) (h : wfMat M m n) :
    wfMat (smulMat c M) m n := by
  constructor
  · rw [smulMat, List.length_map, h.1]
  · intro r hr
    rw [smulMat, List.mem_map] at hr
    obtain ⟨r0, hr0, rfl⟩ := hr
    rw [List.length_map]
    exact h.2 r0 hr0

theorem mapMat_mmT_wf (f : ℚ → ℚ) (A C : Mat) (b : ℕ) (hC : C.length = b) :
    wfMat (mapMat f (mmT A C)) A.length b := by
  constructor
  · rw [mapMat, mmT, List.length_map, List.length_map]
  · intro r hr
    rw [mapMat, mmT, List.map_map, List.mem_map] at hr
    obtain ⟨ar, _, rfl⟩ := hr
    simp only [Function.comp]
    rw [List.length_map, List.length_map, hC]

theorem col_mapMat_mmT (f : ℚ → ℚ) (A C : Mat) (j : ℕ) (hj : j < C.length) :
    (mapMat f (mmT A C)).map (fun row => row.getD j 0) =
      A.map (fun ar => f (dotProd ar (C.getD j []))) := by
  unfold mapMat mmT
  rw [List.map_map, List.map_map]
  apply List.map_congr_left
  intro a _
  simp only [Function.comp]
  rw [List.map_map, getD_map_lt _ _ j hj []]
  rfl

/-- C4: the claim fails as stated.  On a 1-node context with 2-dimensional
features, the GIN encoder returns a `(2, 1)` matrix — 2 rows for 1 node:
every encoder returns `combined.t()`, whose ROWS are embedding dimensions
and whose COLUMNS are the nodes (the orchestrator transposes back before
the residual transforms). -/
theorem C4_encoder_orientation_counterexample :
    ∃ M, GINEncoder.forward (fun n c => SumAggregator.forward id n c) id 0
        ⟨[[1, 2]], [[1, 0], [0, 1]], 1⟩ = some M ∧
      M.length ≠
        (⟨[[1, 2]], [[1, 0], [0, 1]], 1⟩ : EncoderContext Mat).node_count := by
  refine ⟨[[2], [3]], ?_, by decide⟩
  norm_num [GINEncoder.forward, SumAggregator.forward, aggView, viewGroups,
    sumRows, matAdd, smulMat, transposeMat, List.range_succ]

/-- C4 (amended): every encoder forward returns the TRANSPOSE of the
node-major embedding matrix: a `(dim, B)` matrix whose column `j` is the
embedding of the `j`-th node of the batch (GIN:
`neigh + (1+eps)·self`; SAGE: `act(weight · [self, neigh])`; SAINT:
`act(w1·self) ++ act(w2·neigh)`). -/
theorem C4_encoder_orientation_amended {α : Type}
    (aggregator : α → ℕ → Option Mat) (features : α → Mat)
    (ctx : EncoderContext α) (NF : Mat) (d : ℕ)
    (hagg : aggregator ctx.neighbor_feats ctx.node_count = some NF)
    (hNF : wfMat NF ctx.node_count d)
    (hSF : wfMat (features ctx.node_feats) ctx.node_count d)
    (hB : 1 ≤ ctx.node_count)
    (eps : ℚ) (weight w1 w2 : Mat) (act : ℚ → ℚ) :
    (∃ M, GINEncoder.forward aggregator features eps ctx = some M ∧
      wfMat M d ctx.node_count ∧
      ∀ j < ctx.node_count, M.map (fun row => row.getD j 0) =
        (matAdd NF (smulMat (1 + eps) (features ctx.node_feats))).getD j []) ∧
    (∃ M, SageEncoder.forward aggregator features weight act ctx = some M ∧
      wfMat M weight.length ctx.node_count ∧
      ∀ j < ctx.node_count, M.map (fun row => row.getD j 0) =
        weight.map (fun wr => act (dotProd wr
          ((hcat2 (features ctx.node_feats) NF).getD j [])))) ∧
    (∃ M, SaintEncoder.forward aggregator features w1 w2 act ctx = some M ∧
      wfMat M (w1.length + w2.length) ctx.node_count ∧
      ∀ j < ctx.node_count, M.map (fun row => row.getD j 0) =
        w1.map (fun wr => act (dotProd wr
            ((features ctx.node_feats).getD j []))) ++
          w2.map (fun wr => act (dotProd wr (NF.getD j [])))) := by
  set B := ctx.node_count with hBdef
  set SF := features ctx.node_feats with hSFdef
  have hE : wfMat (matAdd NF (smulMat (1 + eps) SF)) B d :=
    matAdd_wf _ _ _ _ hNF (smulMat_wf _ _ _ _ hSF)
  have hcomb : (hcat2 SF NF).length = B := by
    unfold hcat2
    rw [List.length_zipWith, hSF.1, hNF.1, min_self]
  have hgin : GINEncoder.forward aggregator features eps ctx =
      some (transposeMat (matAdd NF (smulMat (1 + eps) SF))) := by
    unfold GINEncoder.forward
    rw [hagg]
    rfl
  have hsage : SageEncoder.forward aggregator features weight act ctx =
      some (mapMat act (mmT weight (hcat2 SF NF))) := by
    unfold SageEncoder.forward
    rw [hagg]
    rfl
  have hsaint : SaintEncoder.forward aggregator features w1 w2 act ctx =
      some (mapMat act (mmT w1 SF ++ mmT w2 NF)) := by
    unfold SaintEncoder.forward
    rw [hagg]
    rfl
  refine ⟨⟨_, hgin, ?_, ?_⟩, ⟨_, hsage, ?_, ?_⟩, ⟨_, hsaint, ?_, ?_⟩⟩
  · exact transposeMat_wf _ B d hE hB
  · intro j hj
    exact col_transposeMat _ B d hE hB j hj
  · exact mapMat_mmT_wf act weight (hcat2 SF NF) B hcomb
  · intro j hj
    rw [col_mapMat_mmT act weight _ j (by rw [hcomb]; exact hj)]
  · constructor
    · rw [mapMat, List.length_map, List.length_append, mmT, mmT,
        List.length_map, List.length_map]
    · intro r hr
      rw [mapMat, List.mem_map] at hr
      obtain ⟨r0, hr0, rfl⟩ := hr
      rw [List.mem_append] at hr0
      rw [List.length_map]
      rcases hr0 with h | h
      · rw [mmT, List.mem_map] at h
        obtain ⟨ar, _, rfl⟩ := h
        rw [List.length_map, hSF.1]
      · rw [mmT, List.mem_map] at h
        obtain ⟨ar, _, rfl⟩ := h
        rw [List.length_map, hNF.1]
  · intro j hj
    have hsplit : mapMat act (mmT w1 SF ++ mmT w2 NF) =
        mapMat act (mmT w1 SF) ++ mapMat act (mmT w2 NF) := by
      rw [mapMat, mapMat, mapMat, List.map_append]
    rw [hsplit, List.map_append,
      col_mapMat_mmT act w1 SF j (by rw [hSF.1]; exact hj),
      col_mapMat_mmT act w2 NF j (by rw [hNF.1]; exact hj)]

theorem C4_encoder_orientation_witness :
    (∃ M, GINEncoder.forward
        (fun (n : Mat) (c : ℕ) => SumAggregator.forward id n c) id 0
        ⟨[[0, 0]], [[1, 0], [0, 1]], 1⟩ = some M ∧
      wfMat M 2 1 ∧
      ∀ j < 1, M.map (fun row => row.getD j 0) =
        (matAdd [[1, 1]] (smulMat (1 + 0) (id ([[0, 0]] : Mat)))).getD j []) ∧
    (∃ M, SageEncoder.forward
        (fun (n : Mat) (c : ℕ) => SumAggregator.forward id n c) id
        [[1, 1, 1, 1]] id ⟨[[0, 0]], [[1, 0], [0, 1]], 1⟩ = some M ∧
      wfMat M ([[1, 1, 1, 1]] : Mat).length 1 ∧
      ∀ j < 1, M.map (fun row => row.getD j 0) =
        ([[1, 1, 1, 1]] : Mat).map (fun wr => id (dotProd wr
          ((hcat2 (id ([[0, 0]] : Mat)) [[1, 1]]).getD j [])))) ∧
    (∃ M, SaintEncoder.forward
        (fun (n : Mat) (c : ℕ) => SumAggregator.forward id n c) id
        [[1, 1]] [[1, 1]] id ⟨[[0, 0]], [[1, 0], [0, 1]], 1⟩ = some M ∧
      wfMat M (([[1, 1]] : Mat).length + ([[1, 1]] : Mat).length) 1 ∧
      ∀ j < 1, M.map (fun row => row.getD j 0) =
        ([[1, 1]] : Mat).map (fun wr => id (dotProd wr
            ((id ([[0, 0]] : Mat)).getD j []))) ++
          ([[1, 1]] : Mat).map (fun wr => id (dotProd wr
            (([[1, 1]] : Mat).getD j [])))) :=
  C4_encoder_orientation_amended
    (fun (n : Mat) (c : ℕ) => SumAggregator.forward id n c) id
    ⟨[[0, 0]], [[1, 0], [0, 1]], 1⟩ [[1, 1]] 2
    (by simp [SumAggregator.forward, aggView, viewGroups, sumRows,
      List.range_succ])
    (by decide) (by decide) (by decide)
    0 [[1, 1, 1, 1]] [[1, 1]] [[1, 1]] id

/-- C6: construction with a length-1 fan-out list passes the
`assert len(fanouts) in [1, 2, 3]` but then raises `IndexError` in
`_construct_embeddings`, which unconditionally reads `fanouts[1]` and
`fanouts[2]` — construction does NOT succeed for fan-out lists of length
1 or 2 even though the assert (and the spec) admit them. -/
theorem C6_fanout_construction_eval :
    GalaXCBase.init 4 2 ["cpu"] 2 [2] () 2 (1 / 2) 1 0 =
      .error "IndexError: fanouts" := rfl

/-- C9: pretrained-weight initialization through the model boundary can
never succeed: `initialize_embeddings` reads the never-assigned
`self.embeddings` and `initialize_classifier` reads the nonexistent
`self.classifier.weight`, so both raise `AttributeError` on every
constructed model and every input array (the argument is never touched
before the failing lookup). -/
theorem C9_initializers_always_raise :
    GalaXCBase.initialize_embeddings =
      .error "AttributeError: embeddings" ∧
    GalaXCBase.initialize_classifier =
      .error "AttributeError: weight" := by
  constructor <;> rfl

/-- C10: the classifier's shard count equals `len(device_names)`, and the
`num_clf_partitions` constructor parameter is stored but never read:
constructions differing only in it produce identical states apart from
the stored field itself — in particular the same classifier — so it has
no effect on the partitioning or on any forward pass. -/
theorem C10_partitions_follow_devices {α : Type}
    (num_labels hidden_dims : ℕ) (device_names : List String)
    (feature_dim : ℕ) (fanouts : List ℕ) (graph : α) (embed_dim : ℕ)
    (dropout : ℚ) (p q : ℕ) (padding_idx : ℕ)
    (hdev : device_names ≠ []) (hfan : fanouts.length = 3) :
    GalaXCBase.init num_labels hidden_dims device_names feature_dim
        fanouts graph embed_dim dropout p padding_idx =
      (GalaXCBase.init num_labels hidden_dims device_names feature_dim
        fanouts graph embed_dim dropout q padding_idx).map
        (fun st => { st with num_clf_partitions := p }) ∧
    ∀ st, GalaXCBase.init num_labels hidden_dims device_names feature_dim
        fanouts graph embed_dim dropout p padding_idx = .ok st →
      st.classifier.num_partitions = device_names.length := by
  rcases device_names with _ | ⟨d0, rest⟩
  · exact absurd rfl hdev
  rcases fanouts with _ | ⟨f0, rest1⟩
  · simp at hfan
  rcases rest1 with _ | ⟨f1, rest2⟩
  · simp at hfan
  rcases rest2 with _ | ⟨f2, rest3⟩
  · simp at hfan
  rcases rest3 with _ | ⟨f3, rest4⟩
  swap
  · simp at hfan
  constructor
  · rfl
  · intro st hst
    have h4 := Except.ok.inj hst
    rw [← h4]
    rfl

theorem C10_partitions_witness :
    GalaXCBase.init 4 2 ["cpu", "cuda0"] 2 [2, 2, 2] () 2 (1 / 2) 5 0 =
      (GalaXCBase.init 4 2 ["cpu", "cuda0"] 2 [2, 2, 2] () 2 (1 / 2) 1
        0).map (fun st => { st with num_clf_partitions := 5 }) ∧
    ∀ st, GalaXCBase.init 4 2 ["cpu", "cuda0"] 2 [2, 2, 2] () 2 (1 / 2) 5
        0 = .ok st →
      st.classifier.num_partitions = (["cpu", "cuda0"] : List String).length :=
  C10_partitions_follow_devices 4 2 ["cpu", "cuda0"] 2 [2, 2, 2] () 2
    (1 / 2) 5 1 0 (by decide) (by decide)
